import Mathlib

/-!
# nanogui `LiveGraph` / `Graph`: ring buffer, colour map and colour lookup

A shallow embedding of `include/nanogui/livegraph.h`, `src/livegraph.cpp` and
`src/graph.cpp`.

Conventions of the embedding

* `float` values are modelled by `ℚ`: finite values with exact arithmetic.  The only
  place where the code leaves the finite range by construction (the division in the
  normalisation of `LiveGraph::draw`) is modelled separately over `FloatVal`, which adds
  the IEEE-754 special values.
* `int` is 32 bit two's complement, `size_t` is 64 bit; narrowing conversions are written
  out (`toInt32`, `toSizeT`).
* `std::vector` / `Eigen::VectorXf` are lists.
-/

namespace nanogui

/-! ## Machine integers -/

/-- Conversion of an integer value to the C++ type `int` (32 bit, two's complement). -/
def toInt32 (n : Int) : Int := (n + 2147483648) % 4294967296 - 2147483648

/-- Conversion of an integer value to the C++ type `size_t` (64 bit, unsigned). -/
def toSizeT (n : Int) : Nat := (n % 18446744073709551616).toNat

/-! ## Colours and colour maps -/

/-- An RGBA colour, `float rgba[4]` (`nanogui::Color` / `NVGcolor`). -/
abbrev Color := Fin 4 → ℚ

/-- Builds a colour from its four channels. -/
def Color.mk (r g b a : ℚ) : Color := fun i =>
  match i with
  | 0 => r
  | 1 => g
  | 2 => b
  | 3 => a

/-- One colour stop, `ColorMap::value_type = std::pair<float, Color>`. -/
abbrev Stop := ℚ × Color

/-- The type `ColorMap = std::vector<std::pair<float, Color>>`. -/
abbrev ColorMap := List Stop

/-! ## The widget state -/

/-- The fields of `LiveGraph` that the ring buffer and the colour map use. -/
structure LiveGraph where
  /-- The field `VectorXf mValues`. -/
  mValues : List ℚ
  /-- The field `ColorMap mColorMap`. -/
  mColorMap : ColorMap
  /-- The field `Vector2f mRange`. -/
  mRange : ℚ × ℚ
  /-- The field `std::atomic<size_t> mCurWriteHead`. -/
  mCurWriteHead : Nat
  /-- The field `Color mForegroundColor`. -/
  mForegroundColor : Color

/-- The constructor `LiveGraph::LiveGraph(parent, caption, bufSize, range)`:
`mValues = VectorXf::Zero(bufSize)`, `mCurWriteHead(0)`,
`mForegroundColor = Color(255, 192, 0, 128)`. -/
def LiveGraph.new (bufSize : Nat) (range : ℚ × ℚ := (0, 1)) : LiveGraph where
  mValues := List.replicate bufSize 0
  mColorMap := []
  mRange := range
  mCurWriteHead := 0
  mForegroundColor := Color.mk 1 (192 / 255) 0 (128 / 255)

/-- The method `LiveGraph::insertValue(float v)`:
```
int curWriteHead = mCurWriteHead;
mValues(curWriteHead) = v;
curWriteHead = (++curWriteHead) % mValues.rows();
mCurWriteHead = curWriteHead;
```
The result is `none` when the write `mValues(curWriteHead)` would fall outside the vector
(undefined behaviour in the source). -/
def LiveGraph.insertValue (g : LiveGraph) (v : ℚ) : Option LiveGraph :=
  let curWriteHead : Int := toInt32 g.mCurWriteHead
  if 0 ≤ curWriteHead ∧ curWriteHead < g.mValues.length then
    let mValues := g.mValues.set curWriteHead.toNat v
    let curWriteHead := toInt32 (curWriteHead + 1)
    let curWriteHead := toInt32 (Int.tmod curWriteHead mValues.length)
    some { g with mValues := mValues, mCurWriteHead := toSizeT curWriteHead }
  else
    none

/-- A sequence of calls of `insertValue`, oldest first. -/
def LiveGraph.insertValues (g : LiveGraph) : List ℚ → Option LiveGraph
  | [] => some g
  | v :: vs => (g.insertValue v).bind (fun g' => g'.insertValues vs)

/-! ## The colour map: `setColorMap` -/

/-- A `float` with the IEEE-754 special values; finite values are exact rationals (the two
zeros are not told apart). -/
inductive FloatVal where
  | fin (q : ℚ)
  | posInf
  | negInf
  | nan
  deriving DecidableEq

/-- Subtraction of `float`s. -/
def FloatVal.sub : FloatVal → FloatVal → FloatVal
  | .fin a, .fin b => .fin (a - b)
  | .nan, _ => .nan
  | _, .nan => .nan
  | .posInf, .posInf => .nan
  | .negInf, .negInf => .nan
  | .posInf, _ => .posInf
  | .negInf, _ => .negInf
  | .fin _, .posInf => .negInf
  | .fin _, .negInf => .posInf

/-- Division of `float`s.  A finite non-zero value divided by zero is an infinity with the
sign of the dividend (the divisors of `draw` are differences, whose zero is `+0`), and
zero divided by zero is NaN. -/
def FloatVal.div : FloatVal → FloatVal → FloatVal
  | .fin a, .fin b =>
    if b ≠ 0 then .fin (a / b)
    else if 0 < a then .posInf
    else if a < 0 then .negInf
    else .nan
  | .nan, _ => .nan
  | _, .nan => .nan
  | .fin _, .posInf => .fin 0
  | .fin _, .negInf => .fin 0
  | .posInf, .fin b => if 0 ≤ b then .posInf else .negInf
  | .negInf, .fin b => if 0 ≤ b then .negInf else .posInf
  | .posInf, .posInf => .nan
  | .posInf, .negInf => .nan
  | .negInf, .posInf => .nan
  | .negInf, .negInf => .nan

/-- The comparison `a < b` of `float`s; it is false as soon as one side is NaN. -/
def FloatVal.lt : FloatVal → FloatVal → Bool
  | .fin a, .fin b => decide (a < b)
  | .nan, _ => false
  | _, .nan => false
  | .negInf, .negInf => false
  | .negInf, _ => true
  | _, .negInf => false
  | .posInf, _ => false
  | .fin _, .posInf => true

/-- The function `std::max(a, b)`: `(a < b) ? b : a`. -/
def stdMax (a b : FloatVal) : FloatVal := if a.lt b then b else a

/-- The function `std::min(a, b)`: `(b < a) ? b : a`. -/
def stdMin (a b : FloatVal) : FloatVal := if b.lt a then b else a

/-- The divisor `mRange[1] - mRange[0]` of the normalisation. -/
def rangeWidth (mRange : FloatVal × FloatVal) : FloatVal := mRange.2.sub mRange.1

/-- The normalisation of `LiveGraph::draw`, used for `nz` (with `mFnZero`) and for `nv`
(with every sample):
`std::min(std::max((v - mRange[0]) / (mRange[1] - mRange[0]), 0.0f), 1.0f)`. -/
def normalize (mRange : FloatVal × FloatVal) (v : FloatVal) : FloatVal :=
  stdMin (stdMax ((v.sub mRange.1).div (rangeWidth mRange)) (.fin 0)) (.fin 1)

/-! ## The index ranges of `LiveGraph::draw` -/

/-- The loop `for (int i = b; i < e && i < mValues.size(); ++i)` of `drawRange`: the list
of the indices `i` at which `mValues[i]` is read and a rectangle is drawn.  (`i < e` keeps
`++i` inside `int`.) -/
def drawRangeLoop (size e : Int) (i : Int) : List Int :=
  if i < e ∧ i < size then i :: drawRangeLoop size e (i + 1) else []
termination_by (e - i).toNat
decreasing_by omega

/-- The lambda `drawRange(int b, int e)`; the arguments are narrowed to `int` at the call. -/
def drawRange (size : Int) (b e : Int) : List Int :=
  drawRangeLoop size (toInt32 e) (toInt32 b)

/-- The indices read by `LiveGraph::draw` through its two calls
```
drawRange(1, curWriteHead);
drawRange(curWriteHead + mValues.size()/10, mValues.size());
```
for a buffer of `size` values and the write head `curWriteHead` (a `size_t`; the sum of the
second call is computed in `size_t`). -/
def drawnIndices (size curWriteHead : Nat) : List Int :=
  drawRange size 1 curWriteHead ++
    drawRange size (toSizeT ((curWriteHead : Int) + (size : Int) / 10)) size

/-! ## Predicates of the specification -/

/-- The contents of the ring after the appends `vs` on a fresh buffer of size `c`: with
`vs.length = B + h`, `B` a multiple of `c` and `h < c`, the cursor is `h`, the slots below
the cursor hold the samples of the current lap and the others those of the lap before
(zero when there was none). -/
def RingInv (c : Nat) (vs : List ℚ) (g : LiveGraph) : Prop :=
  g.mValues.length = c ∧
  ∃ B h, vs.length = B + h ∧ h < c ∧ B % c = 0 ∧ (B = 0 ∨ c ≤ B) ∧ g.mCurWriteHead = h ∧
    ∀ i, i < c → g.mValues[i]? =
      some (if i < h then vs.getD (B + i) 0 else if c ≤ B then vs.getD (B - c + i) 0 else 0)

/-- The index `(cursor - 1) mod c` of the slot just behind the write head. -/
def prevIndex (c cursor : Nat) : Nat := (((cursor : Int) - 1) % (c : Int)).toNat

/-! # Theorems -/

/-! ## Ring buffer: auxiliary facts -/

theorem toInt32_of_lt {n : Int} (h0 : 0 ≤ n) (h : n < 2147483648) : toInt32 n = n := by
  unfold toInt32
  omega

theorem toSizeT_of_lt {n : Int} (h0 : 0 ≤ n) (h : n < 2147483648) : toSizeT n = n.toNat := by
  unfold toSizeT
  omega

/-- On a state whose cursor is inside the buffer (and the buffer size is an `int`),
`insertValue` succeeds, overwrites the slot under the cursor and advances the cursor by
one modulo the size. -/
theorem insertValue_eq (g : LiveGraph) (v : ℚ) (hc : g.mCurWriteHead < g.mValues.length)
    (hsz : g.mValues.length < 2147483648) :
    g.insertValue v = some { g with
      mValues := g.mValues.set g.mCurWriteHead v
      mCurWriteHead := (g.mCurWriteHead + 1) % g.mValues.length } := by
  have h1 : toInt32 (g.mCurWriteHead : Int) = (g.mCurWriteHead : Int) :=
    toInt32_of_lt (by omega) (by omega)
  have h2 : toInt32 ((g.mCurWriteHead : Int) + 1) = (g.mCurWriteHead : Int) + 1 :=
    toInt32_of_lt (by omega) (by omega)
  have hpos : (0 : Int) < (g.mValues.length : Int) := by omega
  have h3 : Int.tmod ((g.mCurWriteHead : Int) + 1) (g.mValues.length : Int)
      = (((g.mCurWriteHead + 1) % g.mValues.length : Nat) : Int) := by
    rw [Int.tmod_eq_emod (by omega) (by omega)]
    push_cast
    rfl
  have hlt : (g.mCurWriteHead + 1) % g.mValues.length < g.mValues.length :=
    Nat.mod_lt _ (by omega)
  unfold LiveGraph.insertValue
  simp only [h1, List.length_set, h2, h3]
  rw [if_pos ⟨by omega, by omega⟩]
  rw [toInt32_of_lt (by omega) (by omega), toSizeT_of_lt (by omega) (by omega)]
  simp only [Int.toNat_ofNat]

theorem ringInv_new (c : Nat) (hc : 0 < c) (range : ℚ × ℚ) :
    RingInv c [] (LiveGraph.new c range) := by
  refine ⟨by simp [LiveGraph.new], 0, 0, rfl, hc, Nat.zero_mod c, Or.inl rfl, rfl, ?_⟩
  intro i hi
  have h0 : ¬ c ≤ 0 := by omega
  simp [LiveGraph.new, List.getElem?_replicate, hi, h0]

theorem ringInv_step (c : Nat) (hc2 : c < 2147483648) (vs : List ℚ) (v : ℚ) (g : LiveGraph)
    (hinv : RingInv c vs g) :
    ∃ g', g.insertValue v = some g' ∧ RingInv c (vs ++ [v]) g' ∧
      g'.mValues[g.mCurWriteHead]? = some v ∧
      g'.mCurWriteHead = (g.mCurWriteHead + 1) % c := by
  obtain ⟨hlen, B, h, hN, hh, hB, hB', hcur, hslots⟩ := hinv
  have hset : ∀ i, i < c → (g.mValues.set h v)[i]? = if h = i then some v else g.mValues[i]? := by
    intro i hi
    rw [List.getElem?_set]
    by_cases hih : h = i
    · rw [if_pos hih, if_pos hih, if_pos (by omega : h < g.mValues.length)]
    · rw [if_neg hih, if_neg hih]
  have hlen' : (vs ++ [v]).length = B + (h + 1) := by
    rw [List.length_append, hN]
    rfl
  have hnew : (vs ++ [v]).getD (B + h) 0 = v := by
    rw [List.getD_append_right _ _ _ _ (by omega : vs.length ≤ B + h), hN, Nat.sub_self]
    rfl
  have hold : ∀ n, n < B + h → (vs ++ [v]).getD n 0 = vs.getD n 0 := by
    intro n hn
    exact List.getD_append _ _ _ _ (by omega)
  refine ⟨_, insertValue_eq g v (by omega) (by omega), ?_, ?_, ?_⟩
  · refine ⟨by rw [List.length_set]; exact hlen, ?_⟩
    by_cases hwrap : h + 1 < c
    · refine ⟨B, h + 1, hlen', hwrap, hB, hB', ?_, ?_⟩
      · show (g.mCurWriteHead + 1) % g.mValues.length = h + 1
        rw [hlen, hcur]
        exact Nat.mod_eq_of_lt hwrap
      · intro i hi
        show (g.mValues.set g.mCurWriteHead v)[i]? = _
        rw [hcur, hset i hi]
        by_cases hih : h = i
        · subst hih
          rw [if_pos rfl, if_pos (by omega : h < h + 1), hnew]
        · rw [if_neg hih, hslots i hi]
          by_cases hlt : i < h
          · have h1 : i < h + 1 := by omega
            rw [if_pos hlt, if_pos h1, hold _ (by omega : B + i < B + h)]
          · have h1 : ¬ i < h + 1 := by omega
            rw [if_neg hlt, if_neg h1]
            by_cases hcB : c ≤ B
            · rw [if_pos hcB, if_pos hcB, hold _ (by omega : B - c + i < B + h)]
            · rw [if_neg hcB, if_neg hcB]
    · have hhc : h + 1 = c := by omega
      refine ⟨B + c, 0, by rw [hlen']; omega, by omega, ?_, Or.inr (by omega), ?_, ?_⟩
      · rw [Nat.add_mod_right]
        exact hB
      · show (g.mCurWriteHead + 1) % g.mValues.length = 0
        rw [hlen, hcur, hhc]
        exact Nat.mod_self c
      · intro i hi
        have h0 : ¬ i < 0 := by omega
        have hc' : c ≤ B + c := by omega
        rw [if_neg h0, if_pos hc', Nat.add_sub_cancel]
        show (g.mValues.set g.mCurWriteHead v)[i]? = _
        rw [hcur, hset i hi]
        by_cases hih : h = i
        · subst hih
          rw [if_pos rfl, hnew]
        · rw [if_neg hih, hslots i hi]
          have hlt : i < h := by omega
          rw [if_pos hlt, hold _ (by omega : B + i < B + h)]
  · show (g.mValues.set g.mCurWriteHead v)[g.mCurWriteHead]? = _
    rw [hcur, hset h hh, if_pos rfl]
  · show (g.mCurWriteHead + 1) % g.mValues.length = _
    rw [hlen]

theorem insertValues_nil (g : LiveGraph) : g.insertValues [] = some g := by
  rw [LiveGraph.insertValues]

theorem insertValues_cons (g : LiveGraph) (v : ℚ) (vs : List ℚ) :
    g.insertValues (v :: vs) = (g.insertValue v).bind (fun g' => g'.insertValues vs) := by
  rw [LiveGraph.insertValues]

theorem insertValues_concat (g : LiveGraph) (vs : List ℚ) (v : ℚ) :
    g.insertValues (vs ++ [v]) = (g.insertValues vs).bind (fun g' => g'.insertValue v) := by
  induction vs generalizing g with
  | nil =>
    rw [List.nil_append, insertValues_cons, insertValues_nil, Option.some_bind]
    generalize g.insertValue v = o
    cases o with
    | none => rw [Option.none_bind]
    | some g' => rw [Option.some_bind, insertValues_nil]
  | cons w ws ih =>
    rw [List.cons_append, insertValues_cons, insertValues_cons]
    generalize g.insertValue w = o
    cases o with
    | none => rw [Option.none_bind, Option.none_bind, Option.none_bind]
    | some g' => rw [Option.some_bind, Option.some_bind, ih]

/-- Every sequence of appends on a fresh buffer whose size is a positive `int` succeeds
and establishes `RingInv`. -/
theorem ringInv_insertValues (c : Nat) (hc : 0 < c) (hc2 : c < 2147483648) (range : ℚ × ℚ)
    (vs : List ℚ) :
    ∃ g, (LiveGraph.new c range).insertValues vs = some g ∧ RingInv c vs g := by
  induction vs using List.reverseRecOn with
  | nil => exact ⟨LiveGraph.new c range, insertValues_nil _, ringInv_new c hc range⟩
  | append_singleton vs v ih =>
    obtain ⟨g, hg, hinv⟩ := ih
    obtain ⟨g', hg', hinv', -, -⟩ := ringInv_step c hc2 vs v g hinv
    refine ⟨g', ?_, hinv'⟩
    rw [insertValues_concat, hg, Option.some_bind]
    exact hg'

theorem RingInv.cursor_eq_mod {c : Nat} {vs : List ℚ} {g : LiveGraph} (h : RingInv c vs g) :
    g.mCurWriteHead = vs.length % c := by
  obtain ⟨-, B, h, hN, hh, hB, -, hcur, -⟩ := h
  rw [hcur, hN, Nat.add_mod, hB, Nat.zero_add, Nat.mod_mod, Nat.mod_eq_of_lt hh]

theorem prevIndex_succ_mod (c h : Nat) (hh : h < c) : prevIndex c ((h + 1) % c) = h := by
  unfold prevIndex
  by_cases hwrap : h + 1 < c
  · rw [Nat.mod_eq_of_lt hwrap]
    have e : (((h + 1 : Nat) : Int) - 1) = (h : Int) := by push_cast; ring
    rw [e, Int.emod_eq_of_lt (by omega) (by omega), Int.toNat_ofNat]
  · have hhc : h + 1 = c := by omega
    rw [hhc, Nat.mod_self]
    have e : (((0 : Nat) : Int) - 1) % (c : Int) = ((c : Int) - 1) := by
      have e1 : (((0 : Nat) : Int) - 1) = ((c : Int) - 1) + (-1) * (c : Int) := by push_cast; ring
      rw [e1, Int.add_mul_emod_self, Int.emod_eq_of_lt (by omega) (by omega)]
    rw [e]
    omega

theorem insertValue_concrete (vals : List ℚ) (cm : ColorMap) (r : ℚ × ℚ) (h : Nat) (fg : Color)
    (v : ℚ) (hc : h < vals.length) (hsz : vals.length < 2147483648) :
    LiveGraph.insertValue ⟨vals, cm, r, h, fg⟩ v
      = some ⟨vals.set h v, cm, r, (h + 1) % vals.length, fg⟩ :=
  insertValue_eq ⟨vals, cm, r, h, fg⟩ v hc hsz

/-- One append on a fresh buffer of size 4. -/
theorem insertValues_fresh4_single : (LiveGraph.new 4 (0, 1)).insertValues [7]
    = some ⟨[7, 0, 0, 0], [], (0, 1), 1, Color.mk 1 (192 / 255) 0 (128 / 255)⟩ := by
  rw [insertValues_cons, LiveGraph.new]
  rw [insertValue_concrete _ _ _ _ _ _ (by simp) (by simp)]
  rw [Option.some_bind, insertValues_nil]
  rfl

/-! ## Ring buffer: the claims -/

/-- The example of the specification: buffer size 4 and the appends `[1, 2, 3, 4, 5]`
leave the buffer `[5, 2, 3, 4]` and the write head at 1. -/
theorem insertValues_example_capacity4 :
    ((LiveGraph.new 4 (0, 1)).insertValues [1, 2, 3, 4, 5]).map
      (fun g => (g.mValues, g.mCurWriteHead)) = some ([5, 2, 3, 4], 1) := by
  rw [insertValues_cons, LiveGraph.new]
  rw [insertValue_concrete _ _ _ _ _ _ (by simp) (by simp), Option.some_bind]
  rw [insertValues_cons, insertValue_concrete _ _ _ _ _ _ (by simp) (by simp), Option.some_bind]
  rw [insertValues_cons, insertValue_concrete _ _ _ _ _ _ (by simp) (by simp), Option.some_bind]
  rw [insertValues_cons, insertValue_concrete _ _ _ _ _ _ (by simp) (by simp), Option.some_bind]
  rw [insertValues_cons, insertValue_concrete _ _ _ _ _ _ (by simp) (by simp), Option.some_bind]
  rw [insertValues_nil]
  rfl

/-- C1. For every buffer size `c > 1` (an `int`, as `bufSize` is) and every non-empty
sequence of values appended with `insertValue` to a freshly constructed `LiveGraph`, all
appends succeed and the slot at index `(cursor - 1) mod c`, `cursor` being the write head
after the last append, holds the value appended last. -/
theorem insertValues_prev_slot_holds_last (c : Nat) (hc : 1 < c) (hint : c < 2147483648)
    (range : ℚ × ℚ) (vs : List ℚ) (hne : vs ≠ []) :
    ∃ g, (LiveGraph.new c range).insertValues vs = some g ∧
      g.mValues[prevIndex c g.mCurWriteHead]? = some (vs.getLast hne) := by
  rcases List.eq_nil_or_concat vs with h | ⟨init, v, h⟩
  · exact absurd h hne
  · subst h
    simp only [List.concat_eq_append] at hne ⊢
    obtain ⟨g, hg, hinv⟩ := ringInv_insertValues c (by omega) hint range init
    obtain ⟨g', hg', -, hslot, hcur⟩ := ringInv_step c hint init v g hinv
    refine ⟨g', ?_, ?_⟩
    · rw [insertValues_concat, hg, Option.some_bind]
      exact hg'
    · have hlt : g.mCurWriteHead < c := by
        obtain ⟨-, B, h, -, hh, -, -, hcur', -⟩ := hinv
        omega
      rw [hcur, prevIndex_succ_mod c _ hlt, hslot, List.getLast_concat]

/-- C1, witness: buffer size 4 and the appends `[1, 2, 3, 4, 5]`. -/
theorem insertValues_prev_slot_holds_last_witness :
    ∃ g, (LiveGraph.new 4 (0, 1)).insertValues [1, 2, 3, 4, 5] = some g ∧
      g.mValues[prevIndex 4 g.mCurWriteHead]? =
        some (([1, 2, 3, 4, 5] : List ℚ).getLast (List.cons_ne_nil _ _)) :=
  insertValues_prev_slot_holds_last 4 (by decide) (by decide) (0, 1) [1, 2, 3, 4, 5]
    (List.cons_ne_nil _ _)

/-- C4. For every buffer size `c > 1` (an `int`) and every `N`, `N` calls of `insertValue`
on a freshly constructed `LiveGraph` succeed and leave the write head at `N mod c`; the
write head lies in `[0, c)` and is `0` again after exactly `c` appends. -/
theorem insertValues_cursor_eq_mod (c : Nat) (hc : 1 < c) (hint : c < 2147483648)
    (range : ℚ × ℚ) (vs : List ℚ) :
    ∃ g, (LiveGraph.new c range).insertValues vs = some g ∧
      g.mCurWriteHead = vs.length % c ∧ g.mCurWriteHead < c ∧
      (vs.length = c → g.mCurWriteHead = 0) := by
  obtain ⟨g, hg, hinv⟩ := ringInv_insertValues c (by omega) hint range vs
  have hmod := hinv.cursor_eq_mod
  refine ⟨g, hg, hmod, ?_, ?_⟩
  · rw [hmod]
    exact Nat.mod_lt _ (by omega)
  · intro hlen
    rw [hmod, hlen, Nat.mod_self]

/-- C4, witness: buffer size 4 and four appends bring the write head back to 0. -/
theorem insertValues_cursor_eq_mod_witness :
    ∃ g, (LiveGraph.new 4 (0, 1)).insertValues [1, 2, 3, 4] = some g ∧
      g.mCurWriteHead = ([1, 2, 3, 4] : List ℚ).length % 4 ∧ g.mCurWriteHead < 4 ∧
      (([1, 2, 3, 4] : List ℚ).length = 4 → g.mCurWriteHead = 0) :=
  insertValues_cursor_eq_mod 4 (by decide) (by decide) (0, 1) [1, 2, 3, 4]

/-- C9, counterexample. After the single append of 7 to a fresh buffer of size 4 the
buffer is `[7, 0, 0, 0]` and the write head is 1: the slot at the write head holds 0, not
the sample written last. -/
theorem insertValues_head_slot_not_newest :
    ((LiveGraph.new 4 (0, 1)).insertValues [7]).map
      (fun g => (g.mValues, g.mCurWriteHead, g.mValues[g.mCurWriteHead]?))
        = some ([7, 0, 0, 0], 1, some 0) ∧
    ¬ ∀ g, (LiveGraph.new 4 (0, 1)).insertValues [7] = some g →
        g.mValues[g.mCurWriteHead]? = some (([7] : List ℚ).getLastD 0) := by
  rw [insertValues_fresh4_single]
  refine ⟨rfl, fun h => ?_⟩
  have := h _ rfl
  simp at this

/-- C9, as the code has it. For every buffer size `c > 1` (an `int`) and every sequence
of appends on a freshly constructed `LiveGraph`, the slot at the write head itself holds
the oldest surviving sample, that is the value appended `c` appends ago, or zero when
fewer than `c` values were appended: it is the slot the next append overwrites. -/
theorem insertValues_head_slot_holds_oldest (c : Nat) (hc : 1 < c) (hint : c < 2147483648)
    (range : ℚ × ℚ) (vs : List ℚ) :
    ∃ g, (LiveGraph.new c range).insertValues vs = some g ∧
      g.mValues[g.mCurWriteHead]? =
        some (if c ≤ vs.length then vs.getD (vs.length - c) 0 else 0) := by
  obtain ⟨g, hg, hinv⟩ := ringInv_insertValues c (by omega) hint range vs
  refine ⟨g, hg, ?_⟩
  obtain ⟨-, B, h, hN, hh, -, hB', hcur, hslots⟩ := hinv
  rw [hcur, hslots h hh, if_neg (Nat.lt_irrefl h)]
  by_cases hcB : c ≤ B
  · have h1 : c ≤ vs.length := by omega
    have h2 : vs.length - c = B - c + h := by omega
    rw [if_pos hcB, if_pos h1, h2]
  · have h1 : ¬ c ≤ vs.length := by omega
    rw [if_neg hcB, if_neg h1]

/-- C9, witness: buffer size 4 and the appends `[1, 2, 3, 4, 5]`. -/
theorem insertValues_head_slot_holds_oldest_witness :
    ∃ g, (LiveGraph.new 4 (0, 1)).insertValues [1, 2, 3, 4, 5] = some g ∧
      g.mValues[g.mCurWriteHead]? =
        some (if 4 ≤ ([1, 2, 3, 4, 5] : List ℚ).length
          then ([1, 2, 3, 4, 5] : List ℚ).getD (([1, 2, 3, 4, 5] : List ℚ).length - 4) 0
          else 0) :=
  insertValues_head_slot_holds_oldest 4 (by decide) (by decide) (0, 1) [1, 2, 3, 4, 5]

/-! ## The colour map: auxiliary facts -/

theorem normalize_degenerate (low v : ℚ) :
    rangeWidth (.fin low, .fin low) = .fin 0 ∧
    normalize (.fin low, .fin low) (.fin v)
      = (if low < v then .fin 1 else if v < low then .fin 0 else .nan) := by
  have hw : rangeWidth (.fin low, .fin low) = .fin 0 := by
    simp [rangeWidth, FloatVal.sub]
  refine ⟨hw, ?_⟩
  unfold normalize
  rw [hw]
  rcases lt_trichotomy v low with h | h | h
  · have h1 : ¬ low < v := not_lt.mpr (le_of_lt h)
    have h2 : ¬ 0 < v - low := by linarith
    have h3 : v - low < 0 := by linarith
    simp [FloatVal.sub, FloatVal.div, stdMax, stdMin, FloatVal.lt, h, h1, h2, h3]
  · subst h
    simp [FloatVal.sub, FloatVal.div, stdMax, stdMin, FloatVal.lt]
  · have h1 : ¬ v < low := not_lt.mpr (le_of_lt h)
    have h2 : 0 < v - low := by linarith
    simp [FloatVal.sub, FloatVal.div, stdMax, stdMin, FloatVal.lt, h, h1, h2]

/-- On a regular domain the normalisation is the clamped quotient: in `[0, 10]` the value
12 is clamped to 1 and the value 5 maps to 1/2. -/
theorem normalize_regular_examples :
    normalize (.fin 0, .fin 10) (.fin 12) = .fin 1 ∧
    normalize (.fin 0, .fin 10) (.fin 5) = .fin (1 / 2) ∧
    normalize (.fin 0, .fin 10) (.fin (-3)) = .fin 0 := by
  refine ⟨?_, ?_, ?_⟩ <;>
    norm_num [normalize, rangeWidth, FloatVal.sub, FloatVal.div, stdMax, stdMin, FloatVal.lt]

/-- C7, evaluation of the code. With a degenerate domain `low == high` (3.0 in the
example) the normalisation of `LiveGraph::draw` divides by `mRange[1] - mRange[0] = 0`
and yields 1 for a sample above `low`, 0 for a sample below and NaN for the sample `low`
itself: never 0.5. -/
theorem normalize_degenerate_never_half :
    rangeWidth (.fin 3, .fin 3) = .fin 0 ∧
    normalize (.fin 3, .fin 3) (.fin 4) = .fin 1 ∧
    normalize (.fin 3, .fin 3) (.fin 2) = .fin 0 ∧
    normalize (.fin 3, .fin 3) (.fin 3) = .nan ∧
    ∀ low v : ℚ, rangeWidth (.fin low, .fin low) = .fin 0 ∧
      normalize (.fin low, .fin low) (.fin v) ≠ .fin (1 / 2) := by
  refine ⟨(normalize_degenerate 3 4).1, ?_, ?_, ?_, ?_⟩
  · rw [(normalize_degenerate 3 4).2]
    norm_num
  · rw [(normalize_degenerate 3 2).2]
    norm_num
  · rw [(normalize_degenerate 3 3).2]
    norm_num
  · intro low v
    refine ⟨(normalize_degenerate low v).1, ?_⟩
    rw [(normalize_degenerate low v).2]
    split_ifs <;> simp

/-! ## The index ranges of `draw`: the claims -/

theorem mem_drawRangeLoop (size e : Int) :
    ∀ (n : Nat) (b i : Int), (e - b).toNat ≤ n →
      (i ∈ drawRangeLoop size e b ↔ b ≤ i ∧ i < e ∧ i < size) := by
  intro n
  induction n with
  | zero =>
    intro b i hn
    rw [drawRangeLoop, if_neg (by omega)]
    simp only [List.not_mem_nil, false_iff]
    omega
  | succ n ih =>
    intro b i hn
    rw [drawRangeLoop]
    by_cases hcond : b < e ∧ b < size
    · rw [if_pos hcond, List.mem_cons, ih (b + 1) i (by omega)]
      omega
    · rw [if_neg hcond]
      simp only [List.not_mem_nil, false_iff]
      omega

theorem mem_drawRange (size b e i : Int) :
    i ∈ drawRange size b e ↔ toInt32 b ≤ i ∧ i < toInt32 e ∧ i < size := by
  unfold drawRange
  exact mem_drawRangeLoop size (toInt32 e) _ (toInt32 b) i (Nat.le_refl _)

/-- As long as the sum `curWriteHead + size/10` still is an `int`, `draw` reads exactly the
indices of `[1, cursor)` and of `[cursor + size/10, size)`: all of them lie in `[0, size)`
and none lies in the gap `[cursor, cursor + size/10)`. -/
theorem drawnIndices_of_small (c cursor : Nat) (hcur : cursor < c) (hint : c < 2147483648)
    (hsum : cursor + c / 10 < 2147483648) (i : Int) :
    (i ∈ drawnIndices c cursor ↔
      (1 ≤ i ∧ i < cursor) ∨ ((cursor : Int) + (c : Int) / 10 ≤ i ∧ i < c)) ∧
    (i ∈ drawnIndices c cursor →
      0 ≤ i ∧ i < c ∧ ¬ ((cursor : Int) ≤ i ∧ i < (cursor : Int) + (c : Int) / 10)) := by
  have h1 : toInt32 1 = 1 := toInt32_of_lt (by omega) (by omega)
  have h2 : toInt32 (cursor : Int) = cursor := toInt32_of_lt (by omega) (by omega)
  have h3 : toInt32 (c : Int) = c := toInt32_of_lt (by omega) (by omega)
  have h4 : ((toSizeT ((cursor : Int) + (c : Int) / 10) : Nat) : Int)
      = (cursor : Int) + (c : Int) / 10 := by
    rw [toSizeT_of_lt (by omega) (by omega)]
    omega
  have h5 : toInt32 ((cursor : Int) + (c : Int) / 10) = (cursor : Int) + (c : Int) / 10 :=
    toInt32_of_lt (by omega) (by omega)
  have hiff : i ∈ drawnIndices c cursor ↔
      (1 ≤ i ∧ i < cursor) ∨ ((cursor : Int) + (c : Int) / 10 ≤ i ∧ i < c) := by
    unfold drawnIndices
    rw [List.mem_append, mem_drawRange, mem_drawRange, h1, h2, h3, h4, h5]
    omega
  refine ⟨hiff, fun hmem => ?_⟩
  have := hiff.mp hmem
  omega

/-- C10, evaluation of the code at a large buffer. With `bufSize = 2147483647` and the
write head at 2147483646 the sum `curWriteHead + mValues.size()/10 = 2362232010` does not
fit the parameter `int b` of `drawRange` and arrives there as -1932735286; the loop starts
at that index, which lies outside `[0, size)`: `draw` reads `mValues[-1932735286]`. -/
theorem drawnIndices_negative_index :
    toInt32 (toSizeT ((2147483646 : Int) + (2147483647 : Int) / 10)) = -1932735286 ∧
    (-1932735286 : Int) ∈ drawnIndices 2147483647 2147483646 := by
  have hb : toInt32 (toSizeT ((2147483646 : Int) + (2147483647 : Int) / 10)) = -1932735286 := by
    unfold toInt32 toSizeT
    omega
  refine ⟨hb, ?_⟩
  unfold drawnIndices
  rw [List.mem_append, mem_drawRange, mem_drawRange]
  right
  have he : toInt32 ((2147483647 : Nat) : Int) = 2147483647 := by
    unfold toInt32
    omega
  have hb' : toInt32 (toSizeT (((2147483646 : Nat) : Int) + ((2147483647 : Nat) : Int) / 10))
      = -1932735286 := by
    unfold toInt32 toSizeT
    omega
  rw [he, hb']
  omega

/-! ## Continuity of the colour lookup: auxiliary facts -/

theorem sorted_getElem_le (m : ColorMap) (hm : m.Pairwise (fun a b => a.1 ≤ b.1))
    (i j : Nat) (hi : i < m.length) (hj : j < m.length) (hij : i ≤ j) : m[i].1 ≤ m[j].1 := by
  rcases Nat.lt_or_eq_of_le hij with h | h
  · exact (List.pairwise_iff_getElem.mp hm) i j hi hj h
  · subst h
    exact le_refl _

end nanogui
